import Mathlib

/-!
Verification of the mIRC style-code parser and URL-stripping logic of
`mantaray/textwidget_tags.py`.

The Python function `parse_text` splits its input on the regex
`\x02|\x1f|\x03[0-9]{1,2}(?:,[0-9]{1,2})?|\x0f` (keeping the separators),
then scans the alternating (separator, text) pairs left to right, carrying a
foreground/background/underline state, and yields `(substring, tags)` for
every non-empty text part.  We embed that computation over `List Char`
(a Python `str` is a sequence of code points) and prove the spec's claims.
-/

instance {ε α : Type} [DecidableEq ε] [DecidableEq α] : DecidableEq (Except ε α) := fun a b =>
  match a, b with
  | Except.error x, Except.error y =>
    if h : x = y then Decidable.isTrue (by rw [h])
    else Decidable.isFalse (fun he => by cases he; exact h rfl)
  | Except.error _, Except.ok _ => Decidable.isFalse (fun he => Except.noConfusion he)
  | Except.ok _, Except.error _ => Decidable.isFalse (fun he => Except.noConfusion he)
  | Except.ok x, Except.ok y =>
    if h : x = y then Decidable.isTrue (by rw [h])
    else Decidable.isFalse (fun he => by cases he; exact h rfl)

/-- The color table `_MIRC_COLORS` of the source, as an association list
from color number to hex string (Python dict with these exact entries). -/
def _MIRC_COLORS : List (Nat × String) :=
  [(0, "#ffffff"), (1, "#000000"), (2, "#00007f"), (3, "#009300"),
   (4, "#ff0000"), (5, "#7f0000"), (6, "#9c009c"), (7, "#fc7f00"),
   (8, "#ffff00"), (9, "#00fc00"), (10, "#009393"), (11, "#00ffff"),
   (12, "#0000fc"), (13, "#ff00ff"), (14, "#7f7f7f"), (15, "#d2d2d2")]

/-- Membership test `n in _MIRC_COLORS` of the Python dict: membership among
the keys of the color table. -/
def inMircColors (n : Nat) : Bool :=
  (_MIRC_COLORS.map Prod.fst).contains n

/-- Greedy `[0-9]{1,2}`: take at most two leading decimal digits, returning
them together with the unconsumed remainder. -/
def takeDigits2 : List Char → List Char × List Char
  | [] => ([], [])
  | [c] => if c.isDigit then ([c], []) else ([], [c])
  | c1 :: c2 :: rest =>
    if c1.isDigit then
      if c2.isDigit then ([c1, c2], rest) else ([c1], c2 :: rest)
    else ([], c1 :: c2 :: rest)

/-- Leftmost match of the style regex
`\x02|\x1f|\x03[0-9]{1,2}(?:,[0-9]{1,2})?|\x0f` at the head of the input:
returns the matched separator and the remainder, or `none` when no
alternative matches at this position (the color alternative needs at least
one digit after `\x03`, and the optional `,<digits>` group needs at least
one digit after the comma). -/
def matchStyle : List Char → Option (List Char × List Char)
  | [] => none
  | c :: rest =>
    if c = '\x02' ∨ c = '\x1f' ∨ c = '\x0f' then some ([c], rest)
    else if c = '\x03' then
      let ds := (takeDigits2 rest).1
      let rest1 := (takeDigits2 rest).2
      if ds = [] then none
      else if rest1.head? = some ',' then
        let ds2 := (takeDigits2 rest1.tail).1
        let rest3 := (takeDigits2 rest1.tail).2
        if ds2 = [] then some ('\x03' :: ds, rest1)
        else some ('\x03' :: ds ++ ',' :: ds2, rest3)
      else some ('\x03' :: ds, rest1)
    else none

/-- Fuel-indexed scan of `re.split` with the style regex and one capture
group: returns the text before the first separator and the following
(separator, text) pairs.  The fuel only makes the recursion structural;
`fuel ≥ length` always suffices because every separator is non-empty. -/
def splitPartsF : Nat → List Char → List Char × List (List Char × List Char)
  | 0, s => (s, [])
  | _ + 1, [] => ([], [])
  | fuel + 1, c :: rest =>
    match matchStyle (c :: rest) with
    | some (sep, rem) =>
      ([], (sep, (splitPartsF fuel rem).1) :: (splitPartsF fuel rem).2)
    | none =>
      (c :: (splitPartsF fuel rest).1, (splitPartsF fuel rest).2)

/-- `re.split("(" + style_regex + ")", text)` decomposed: leading text and
(separator, text) pairs. -/
def splitParts (s : List Char) : List Char × List (List Char × List Char) :=
  splitPartsF s.length s

/-- The raw list returned by `re.split` in the source: text, then
alternating separator/text entries. -/
def reSplit (s : List Char) : List (List Char) :=
  (splitParts s).1 :: (splitParts s).2.flatMap (fun p => [p.1, p.2])

/-- `parts = [""] + re.split(...)` of the source. -/
def parts (s : List Char) : List (List Char) := [] :: reSplit s

/-- Every other element of a list starting from the head: Python's `l[0::2]`. -/
def everyOther : List α → List α
  | [] => []
  | [a] => [a]
  | a :: _ :: rest => a :: everyOther rest

/-- `zip(parts[0::2], parts[1::2])` of the source: the (style_spec, substring)
pairs the parser iterates over. -/
def splitPairs (s : List Char) : List (List Char × List Char) :=
  (everyOther (parts s)).zip (everyOther ((parts s).drop 1))

/-- The style state carried across the scan: current foreground and
background color numbers and the underline flag (`fg = None`,
`bg = None`, `underline = False` initially). -/
structure Style where
  fg : Option Nat
  bg : Option Nat
  underline : Bool
deriving DecidableEq, Repr

/-- The initial style state of `parse_text`. -/
def initStyle : Style := { fg := none, bg := none, underline := false }

/-- Python's `int` on a string of decimal digits. -/
def natOfDigits (ds : List Char) : Nat :=
  ds.foldl (fun n c => 10 * n + (c.toNat - 48)) 0

/-- `re.fullmatch(r"\x03([0-9]{1,2})(,[0-9]{1,2})?", style_spec)`: on
success returns the two capture groups (the second including its leading
comma, as in the source). -/
def colorFullmatch : List Char → Option (List Char × Option (List Char))
  | [] => none
  | c :: rest =>
    if c = '\x03' then
      let ds := (takeDigits2 rest).1
      let rest1 := (takeDigits2 rest).2
      if ds = [] then none
      else if rest1 = [] then some (ds, none)
      else if rest1.head? = some ',' then
        let ds2 := (takeDigits2 rest1.tail).1
        let rest3 := (takeDigits2 rest1.tail).2
        if ds2 = [] ∨ rest3 ≠ [] then none
        else some (ds, some (',' :: ds2))
      else none
    else none

/-- One iteration of the `if`/`elif` chain of `parse_text` updating the
style state for a given `style_spec`.  The `Except` error cases are the
`assert match is not None` and the final `raise ValueError` of the source
(both unreachable, as proved below). -/
def applyStyle (spec : List Char) (st : Style) : Except String Style :=
  if spec = [] then Except.ok st
  else if spec = ['\x02'] then Except.ok st
  else if spec = ['\x1f'] then Except.ok { st with underline := true }
  else if spec.head? = some '\x03' then
    match colorFullmatch spec with
    | none => Except.error "assert match is not None"
    | some (fgSpec, bgSpec) =>
      let fgNum := natOfDigits fgSpec
      let st := { st with fg := if inMircColors fgNum then some fgNum else none }
      match bgSpec with
      | none => Except.ok st
      | some bs =>
        let bgNum := natOfDigits (bs.dropWhile (fun c => c = ','))
        Except.ok { st with bg := if inMircColors bgNum then some bgNum else none }
  else if spec = ['\x0f'] then Except.ok { fg := none, bg := none, underline := false }
  else Except.error ("unexpected regex match: " ++ String.mk spec)

/-- The tag list computed for a yielded run: `foreground-<fg>`,
`background-<bg>`, `underline`, in this order, each present when the
corresponding state component is set. -/
def tagsOf (st : Style) : List String :=
  (match st.fg with
   | some n => ["foreground-" ++ toString n]
   | none => []) ++
  (match st.bg with
   | some n => ["background-" ++ toString n]
   | none => []) ++
  (if st.underline then ["underline"] else [])

/-- The scan loop of `parse_text`: fold `applyStyle` over the
(style_spec, substring) pairs and yield `(substring, tags)` for every
non-empty substring. -/
def runsFrom (st : Style) : List (List Char × List Char) → Except String (List (String × List String))
  | [] => Except.ok []
  | (spec, sub) :: rest => do
    let st' ← applyStyle spec st
    let rs ← runsFrom st' rest
    if sub.isEmpty then pure rs else pure ((String.mk sub, tagsOf st') :: rs)

/-- `parse_text` of the source: the list of `(substring, tags)` runs it
yields, or the message of the assertion/`ValueError` it would raise. -/
def parse_text (s : String) : Except String (List (String × List String)) :=
  runsFrom initStyle (splitPairs s.data)

/-- The style state after folding `applyStyle` over the separators of a
pair list (the state `parse_text` carries past those pairs). -/
def stateAfter (st : Style) : List (List Char × List Char) → Except String Style
  | [] => Except.ok st
  | (spec, _) :: rest => do
    let st' ← applyStyle spec st
    stateAfter st' rest

/-- The input with every matched style control sequence removed: the
concatenation of the text parts of the split. -/
def stripStyle (s : List Char) : List Char :=
  (splitParts s).1 ++ (splitParts s).2.flatMap (fun p => p.2)

/-- A string containing none of the style control bytes
`\x02`, `\x1f`, `\x03`, `\x0f`. -/
def plain (s : List Char) : Prop :=
  ∀ c ∈ s, c ≠ '\x02' ∧ c ≠ '\x1f' ∧ c ≠ '\x03' ∧ c ≠ '\x0f'

instance (s : List Char) : Decidable (plain s) := by
  unfold plain; infer_instance

/-- All characters of the list are decimal digits. -/
def allDigits (ds : List Char) : Prop := ∀ c ∈ ds, c.isDigit = true

instance (ds : List Char) : Decidable (allDigits ds) := by
  unfold allDigits; infer_instance

/-- The list does not begin with a digit or a comma, so a color sequence
ending right before it cannot be extended into it. -/
def neutralHead : List Char → Prop
  | [] => True
  | c :: _ => c.isDigit = false ∧ c ≠ ','

instance (v : List Char) : Decidable (neutralHead v) := by
  unfold neutralHead; cases v <;> infer_instance

theorem neutralHead_not_digit {v : List Char} (h : neutralHead v) :
    ∀ c, v.head? = some c → c.isDigit = false := by
  intro c hc
  cases v with
  | nil => simp at hc
  | cons a rest => simp at hc; subst hc; exact h.1

theorem takeDigits2_decomp (s : List Char) :
    s = (takeDigits2 s).1 ++ (takeDigits2 s).2 ∧
    allDigits (takeDigits2 s).1 ∧ (takeDigits2 s).1.length ≤ 2 := by
  match s with
  | [] => simp [takeDigits2, allDigits]
  | [c] =>
    by_cases h : c.isDigit <;> simp [takeDigits2, h, allDigits]
  | c1 :: c2 :: rest =>
    by_cases h1 : c1.isDigit <;> by_cases h2 : c2.isDigit <;>
      simp [takeDigits2, h1, h2, allDigits]

theorem takeDigits2_len (s : List Char) : (takeDigits2 s).2.length ≤ s.length := by
  match s with
  | [] => simp [takeDigits2]
  | [c] => by_cases h : c.isDigit <;> simp [takeDigits2, h]
  | c1 :: c2 :: rest =>
    by_cases h1 : c1.isDigit <;> by_cases h2 : c2.isDigit <;>
      simp [takeDigits2, h1, h2]
    all_goals omega

theorem takeDigits2_all {ds : List Char} (hd : allDigits ds) (hl : ds.length ≤ 2) :
    takeDigits2 ds = (ds, []) := by
  match ds with
  | [] => simp [takeDigits2]
  | [c] => simp [takeDigits2, hd c (by simp)]
  | [c1, c2] =>
    simp [takeDigits2, hd c1 (by simp), hd c2 (by simp)]
  | c1 :: c2 :: c3 :: rest => simp at hl

theorem takeDigits2_append {u : List Char} (v : List Char)
    (hv : ∀ c, v.head? = some c → c.isDigit = false) :
    takeDigits2 (u ++ v) = ((takeDigits2 u).1, (takeDigits2 u).2 ++ v) := by
  match u with
  | [] =>
    match v with
    | [] => simp [takeDigits2]
    | [c] => simp [takeDigits2, hv c (by simp)]
    | c :: c2 :: rest => simp [takeDigits2, hv c (by simp)]
  | [c] =>
    by_cases h : c.isDigit
    · match v with
      | [] => simp [takeDigits2, h]
      | c2 :: rest2 => simp [takeDigits2, h, hv c2 (by simp)]
    · match v with
      | [] => simp [takeDigits2, h]
      | c2 :: rest2 => simp [takeDigits2, h]
  | c1 :: c2 :: rest =>
    by_cases h1 : c1.isDigit <;> by_cases h2 : c2.isDigit <;>
      simp [takeDigits2, h1, h2]

theorem takeDigits2_exact {ds : List Char} (v : List Char)
    (hd : allDigits ds) (hl : ds.length ≤ 2)
    (hv : ∀ c, v.head? = some c → c.isDigit = false) :
    takeDigits2 (ds ++ v) = (ds, v) := by
  rw [takeDigits2_append v hv, takeDigits2_all hd hl]
  simp

theorem matchStyle_none_head {c : Char} (r : List Char)
    (h2 : c ≠ '\x02') (h1f : c ≠ '\x1f') (h3 : c ≠ '\x03') (h0f : c ≠ '\x0f') :
    matchStyle (c :: r) = none := by
  simp [matchStyle, h2, h1f, h3, h0f]

theorem matchStyle_decomp {s sep rem : List Char}
    (h : matchStyle s = some (sep, rem)) : s = sep ++ rem := by
  match s with
  | [] => simp [matchStyle] at h
  | c :: rest =>
    unfold matchStyle at h
    by_cases hc : c = '\x02' ∨ c = '\x1f' ∨ c = '\x0f'
    · simp only [if_pos hc] at h
      obtain ⟨h1, h2⟩ := Prod.mk.injEq .. ▸ Option.some.inj h
      rw [← h1, ← h2]; simp
    · by_cases hc3 : c = '\x03'
      · simp only [if_neg hc, if_pos hc3] at h
        subst hc3
        rcases htd : takeDigits2 rest with ⟨ds, rest1⟩
        have hrest : rest = ds ++ rest1 := by
          have hh := (takeDigits2_decomp rest).1; rw [htd] at hh; exact hh
        rw [htd] at h
        simp only at h
        by_cases hds : ds = []
        · simp [hds] at h
        · simp only [if_neg hds] at h
          by_cases hcomma : rest1.head? = some ','
          · simp only [if_pos hcomma] at h
            have htl : rest1 = ',' :: rest1.tail := by
              cases he : rest1 with
              | nil => rw [he] at hcomma; simp at hcomma
              | cons a l => rw [he] at hcomma; simp at hcomma; simp [hcomma]
            rcases htd2 : takeDigits2 rest1.tail with ⟨ds2, rest3⟩
            have hrest2 : rest1.tail = ds2 ++ rest3 := by
              have hh := (takeDigits2_decomp rest1.tail).1; rw [htd2] at hh; exact hh
            rw [htd2] at h
            simp only at h
            by_cases hds2 : ds2 = []
            · simp only [if_pos hds2] at h
              obtain ⟨h1, h2⟩ := Prod.mk.injEq .. ▸ Option.some.inj h
              rw [← h1, ← h2, hrest]
              simp
            · simp only [if_neg hds2] at h
              obtain ⟨h1, h2⟩ := Prod.mk.injEq .. ▸ Option.some.inj h
              rw [← h1, ← h2, hrest, htl, hrest2]
              simp
          · simp only [if_neg hcomma] at h
            obtain ⟨h1, h2⟩ := Prod.mk.injEq .. ▸ Option.some.inj h
            rw [← h1, ← h2, hrest]
            simp
      · simp [hc, hc3] at h

theorem matchStyle_length {s sep rem : List Char}
    (h : matchStyle s = some (sep, rem)) : rem.length < s.length ∧ sep ≠ [] := by
  have hd := matchStyle_decomp h
  have hsep : sep ≠ [] := by
    intro he
    match s with
    | [] => simp [matchStyle] at h
    | c :: rest =>
      unfold matchStyle at h
      by_cases hc : c = '\x02' ∨ c = '\x1f' ∨ c = '\x0f'
      · simp [hc] at h; simp [← h.1] at he
      · by_cases hc3 : c = '\x03'
        · simp only [if_neg hc, if_pos hc3] at h
          by_cases hds : (takeDigits2 rest).1 = []
          · simp [hds] at h
          · simp only [if_neg hds] at h
            by_cases hcomma : (takeDigits2 rest).2.head? = some ','
            · simp only [if_pos hcomma] at h
              by_cases hds2 : (takeDigits2 (takeDigits2 rest).2.tail).1 = []
              · simp [hds2] at h; simp [← h.1] at he
              · simp [hds2] at h; simp [← h.1] at he
            · simp only [if_neg hcomma] at h
              simp at h; simp [← h.1] at he
        · simp [hc, hc3] at h
  constructor
  · rw [hd]
    match sep, hsep with
    | c :: l, _ => simp; omega
  · exact hsep

theorem head_ne_comma {r : List Char} (hr : neutralHead r) : r.head? ≠ some ',' := by
  cases r with
  | nil => simp
  | cons a l => simp; exact hr.2

theorem matchStyle_color {ds : List Char} (r : List Char) (hne : ds ≠ [])
    (hd : allDigits ds) (hl : ds.length ≤ 2) (hr : neutralHead r) :
    matchStyle ('\x03' :: ds ++ r) = some ('\x03' :: ds, r) := by
  show matchStyle ('\x03' :: (ds ++ r)) = _
  simp only [matchStyle]
  rw [if_neg (show ¬('\x03' = '\x02' ∨ '\x03' = '\x1f' ∨ '\x03' = '\x0f') by decide)]
  rw [takeDigits2_exact r hd hl (neutralHead_not_digit hr)]
  dsimp only
  rw [if_pos trivial, if_neg hne, if_neg (head_ne_comma hr)]

theorem matchStyle_color_bg {ds ds2 : List Char} (r : List Char)
    (hne : ds ≠ []) (hd : allDigits ds) (hl : ds.length ≤ 2)
    (hne2 : ds2 ≠ []) (hd2 : allDigits ds2) (hl2 : ds2.length ≤ 2)
    (hr : neutralHead r) :
    matchStyle ('\x03' :: ds ++ ',' :: ds2 ++ r) = some ('\x03' :: ds ++ ',' :: ds2, r) := by
  show matchStyle ('\x03' :: (ds ++ ',' :: ds2 ++ r)) = _
  simp only [matchStyle]
  have hcomma : ∀ c : Char, (',' :: ds2 ++ r).head? = some c → c.isDigit = false := by
    intro c hc; simp at hc; rw [← hc]; decide
  rw [if_neg (show ¬('\x03' = '\x02' ∨ '\x03' = '\x1f' ∨ '\x03' = '\x0f') by decide)]
  rw [List.append_assoc ds (',' :: ds2) r]
  rw [takeDigits2_exact (',' :: ds2 ++ r) hd hl hcomma]
  dsimp only
  rw [if_pos trivial, if_neg hne]
  have hh : (',' :: ds2 ++ r : List Char).head? = some ',' := by simp
  rw [if_pos hh]
  simp only [List.cons_append, List.tail_cons]
  rw [takeDigits2_exact r hd2 hl2 (neutralHead_not_digit hr)]
  dsimp only
  rw [if_neg hne2]

theorem matchStyle_append {u : List Char} (v : List Char) (hu : u ≠ []) (hv : neutralHead v) :
    matchStyle (u ++ v) = (matchStyle u).map (fun pr => (pr.1, pr.2 ++ v)) := by
  have hvd : ∀ c, v.head? = some c → c.isDigit = false := neutralHead_not_digit hv
  match u with
  | c :: u' =>
    show matchStyle (c :: (u' ++ v)) = _
    simp only [matchStyle]
    by_cases hc : c = '\x02' ∨ c = '\x1f' ∨ c = '\x0f'
    · rw [if_pos hc, if_pos hc]
      simp
    · by_cases hc3 : c = '\x03'
      · rw [if_neg hc, if_neg hc, if_pos hc3, if_pos hc3,
            takeDigits2_append v hvd]
        rcases htd : takeDigits2 u' with ⟨ds, rest1⟩
        dsimp only
        by_cases hds : ds = []
        · rw [if_pos hds, if_pos hds]; simp
        · rw [if_neg hds, if_neg hds]
          cases rest1 with
          | nil =>
            simp only [List.nil_append]
            rw [if_neg (head_ne_comma hv)]
            have hnil : ([] : List Char).head? ≠ some ',' := by simp
            rw [if_neg hnil]
            simp
          | cons c2 r2 =>
            by_cases hc2 : c2 = ','
            · subst hc2
              have hh : ((',' :: r2 : List Char) ++ v).head? = some ',' := by simp
              have hh' : (',' :: r2 : List Char).head? = some ',' := by simp
              rw [if_pos hh, if_pos hh']
              simp only [List.cons_append, List.tail_cons]
              rw [takeDigits2_append v hvd]
              rcases htd2 : takeDigits2 r2 with ⟨ds2, rest3⟩
              dsimp only
              by_cases hds2 : ds2 = []
              · rw [if_pos hds2, if_pos hds2]; simp
              · rw [if_neg hds2, if_neg hds2]; simp
            · have hh : ((c2 :: r2 : List Char) ++ v).head? ≠ some ',' := by simp [hc2]
              have hh' : (c2 :: r2 : List Char).head? ≠ some ',' := by simp [hc2]
              rw [if_neg hh, if_neg hh']
              simp
      · rw [if_neg hc, if_neg hc, if_neg hc3, if_neg hc3]
        simp

theorem splitPartsF_succ_cons (fuel : Nat) (c : Char) (rest : List Char) :
    splitPartsF (fuel + 1) (c :: rest) =
      match matchStyle (c :: rest) with
      | some (sep, rem) => ([], (sep, (splitPartsF fuel rem).1) :: (splitPartsF fuel rem).2)
      | none => (c :: (splitPartsF fuel rest).1, (splitPartsF fuel rest).2) := rfl

theorem splitPartsF_irrel (f1 : Nat) :
    ∀ (f2 : Nat) (s : List Char), s.length ≤ f1 → s.length ≤ f2 →
      splitPartsF f1 s = splitPartsF f2 s := by
  induction f1 with
  | zero =>
    intro f2 s h1 h2
    have : s = [] := by
      cases s with
      | nil => rfl
      | cons a l => simp at h1
    subst this
    cases f2 with
    | zero => rfl
    | succ f2' => rfl
  | succ f1' ih =>
    intro f2 s h1 h2
    cases s with
    | nil =>
      cases f2 with
      | zero => rfl
      | succ f2' => rfl
    | cons c rest =>
      cases f2 with
      | zero => simp at h2
      | succ f2' =>
        rw [splitPartsF_succ_cons, splitPartsF_succ_cons]
        cases hm : matchStyle (c :: rest) with
        | some pr =>
          rcases pr with ⟨sep, rem⟩
          have hlen := (matchStyle_length hm).1
          simp at h1 h2 hlen
          have e := ih f2' rem (by omega) (by omega)
          simp [e]
        | none =>
          simp at h1 h2
          have e := ih f2' rest (by omega) (by omega)
          simp [e]

theorem splitPartsF_eq {f : Nat} {s : List Char} (h : s.length ≤ f) :
    splitPartsF f s = splitParts s :=
  splitPartsF_irrel f s.length s h (Nat.le_refl _)

theorem splitParts_nil : splitParts [] = ([], []) := rfl

theorem splitParts_cons_sep {s sep rem : List Char} (h : matchStyle s = some (sep, rem)) :
    splitParts s = ([], (sep, (splitParts rem).1) :: (splitParts rem).2) := by
  match s with
  | [] => simp [matchStyle] at h
  | c :: rest =>
    have hlen := (matchStyle_length h).1
    show splitPartsF (rest.length + 1) (c :: rest) = _
    rw [splitPartsF_succ_cons, h]
    have e : splitPartsF rest.length rem = splitParts rem :=
      splitPartsF_eq (by simp at hlen; omega)
    simp [e]

theorem splitParts_cons_text {c : Char} {rest : List Char}
    (h : matchStyle (c :: rest) = none) :
    splitParts (c :: rest) = (c :: (splitParts rest).1, (splitParts rest).2) := by
  show splitPartsF (rest.length + 1) (c :: rest) = _
  rw [splitPartsF_succ_cons, h]
  have e : splitPartsF rest.length rest = splitParts rest := splitPartsF_eq (Nat.le_refl _)
  simp [e]

theorem splitParts_plain_append (t w : List Char) (hp : plain t) :
    splitParts (t ++ w) = (t ++ (splitParts w).1, (splitParts w).2) := by
  induction t with
  | nil => simp
  | cons c t' ih =>
    obtain ⟨h2, h1f, h3, h0f⟩ := hp c (by simp)
    have hm : matchStyle (c :: (t' ++ w)) = none := matchStyle_none_head _ h2 h1f h3 h0f
    show splitParts (c :: (t' ++ w)) = _
    rw [splitParts_cons_text hm, ih (fun d hd => hp d (by simp [hd]))]
    simp

theorem splitParts_plain (t : List Char) (hp : plain t) : splitParts t = (t, []) := by
  have h := splitParts_plain_append t [] hp
  rw [List.append_nil] at h
  rw [h, splitParts_nil]
  simp

theorem matchStyle_reset_head (s : List Char) :
    matchStyle ('\x0f' :: s) = some (['\x0f'], s) := by
  simp [matchStyle]

theorem splitParts_reset (p s : List Char) :
    splitParts (p ++ '\x0f' :: s) =
      ((splitParts p).1,
        (splitParts p).2 ++ (['\x0f'], (splitParts s).1) :: (splitParts s).2) := by
  suffices h : ∀ n p, p.length ≤ n →
      splitParts (p ++ '\x0f' :: s) =
        ((splitParts p).1,
          (splitParts p).2 ++ (['\x0f'], (splitParts s).1) :: (splitParts s).2) from
    h p.length p (Nat.le_refl _)
  intro n
  induction n with
  | zero =>
    intro p hp
    have : p = [] := by
      cases p with
      | nil => rfl
      | cons a l => simp at hp
    subst this
    rw [List.nil_append, splitParts_cons_sep (matchStyle_reset_head s), splitParts_nil]
    simp
  | succ n ih =>
    intro p hp
    cases p with
    | nil =>
      rw [List.nil_append, splitParts_cons_sep (matchStyle_reset_head s), splitParts_nil]
      simp
    | cons c p' =>
      have hv : neutralHead ('\x0f' :: s) := ⟨by decide, by decide⟩
      cases hm : matchStyle (c :: p') with
      | some pr =>
        rcases pr with ⟨sep, rem⟩
        have hcomb : matchStyle ((c :: p') ++ '\x0f' :: s) = some (sep, rem ++ '\x0f' :: s) := by
          rw [matchStyle_append ('\x0f' :: s) (by simp) hv, hm]
          rfl
        have hlen := (matchStyle_length hm).1
        rw [splitParts_cons_sep hcomb, splitParts_cons_sep hm,
            ih rem (by simp at hlen hp; omega)]
        simp
      | none =>
        have hcomb : matchStyle (c :: (p' ++ '\x0f' :: s)) = none := by
          have := matchStyle_append (u := c :: p') ('\x0f' :: s) (by simp) hv
          rw [hm] at this
          simpa using this
        show splitParts (c :: (p' ++ '\x0f' :: s)) = _
        rw [splitParts_cons_text hcomb, splitParts_cons_text hm,
            ih p' (by simp at hp; omega)]

theorem everyOther_cons (a : α) (l : List α) :
    everyOther (a :: l) = a :: everyOther (l.drop 1) := by
  cases l with
  | nil => rfl
  | cons b m => rfl

theorem zip_everyOther (ps : List (List Char × List Char)) :
    (everyOther (ps.flatMap fun p => [p.1, p.2])).zip
      (everyOther ((ps.flatMap fun p => [p.1, p.2]).drop 1)) = ps := by
  induction ps with
  | nil => rfl
  | cons q ps' ih =>
    rcases q with ⟨a, b⟩
    simp only [List.flatMap_cons, List.cons_append, List.nil_append,
      everyOther_cons, List.drop_succ_cons, List.drop_zero, List.zip_cons_cons]
    rw [ih]

theorem splitPairs_eq (s : List Char) :
    splitPairs s = ([], (splitParts s).1) :: (splitParts s).2 := by
  unfold splitPairs parts reSplit
  simp only [everyOther_cons, List.drop_succ_cons, List.drop_zero, List.zip_cons_cons]
  rw [zip_everyOther]

theorem flatMap_pair_length (ps : List (List Char × List Char)) :
    (ps.flatMap fun p => [p.1, p.2]).length = 2 * ps.length := by
  induction ps with
  | nil => rfl
  | cons q ps' ih => simp [ih]; omega

theorem parts_even (s : List Char) : (parts s).length % 2 = 0 := by
  unfold parts reSplit
  rw [List.length_cons, List.length_cons, flatMap_pair_length]
  omega

theorem applyStyle_nil (st : Style) : applyStyle [] st = Except.ok st := rfl

theorem applyStyle_bold (st : Style) : applyStyle ['\x02'] st = Except.ok st := by
  simp [applyStyle]

theorem applyStyle_underline (st : Style) :
    applyStyle ['\x1f'] st = Except.ok { st with underline := true } := by
  simp [applyStyle]

theorem applyStyle_reset (st : Style) :
    applyStyle ['\x0f'] st = Except.ok { fg := none, bg := none, underline := false } := by
  simp [applyStyle]

theorem inMircColors_iff (n : Nat) : inMircColors n = true ↔ n ≤ 15 := by
  simp only [inMircColors, _MIRC_COLORS]
  simp
  omega

theorem digit_ne_comma {c : Char} (h : c.isDigit = true) : c ≠ ',' := by
  intro hc; subst hc; simp at h

theorem colorFullmatch_fg {ds : List Char} (hne : ds ≠ [])
    (hd : allDigits ds) (hl : ds.length ≤ 2) :
    colorFullmatch ('\x03' :: ds) = some (ds, none) := by
  simp only [colorFullmatch]
  rw [if_pos trivial, takeDigits2_all hd hl]
  dsimp only
  rw [if_neg hne, if_pos rfl]

theorem colorFullmatch_fg_bg {ds ds2 : List Char} (hne : ds ≠ [])
    (hd : allDigits ds) (hl : ds.length ≤ 2) (hne2 : ds2 ≠ [])
    (hd2 : allDigits ds2) (hl2 : ds2.length ≤ 2) :
    colorFullmatch ('\x03' :: ds ++ ',' :: ds2) = some (ds, some (',' :: ds2)) := by
  show colorFullmatch ('\x03' :: (ds ++ ',' :: ds2)) = _
  simp only [colorFullmatch]
  have hcomma : ∀ c : Char, (',' :: ds2 : List Char).head? = some c → c.isDigit = false := by
    intro c hc; simp at hc; rw [← hc]; decide
  rw [if_pos trivial, takeDigits2_exact (',' :: ds2) hd hl hcomma]
  dsimp only
  rw [if_neg hne, if_neg (by simp : (',' :: ds2 : List Char) ≠ []),
      if_pos (by simp : (',' :: ds2 : List Char).head? = some ',')]
  simp only [List.tail_cons]
  rw [takeDigits2_all hd2 hl2]
  dsimp only
  rw [if_neg (by simp [hne2])]

theorem applyStyle_head3 {spec : List Char} (st : Style)
    (hh : spec.head? = some '\x03') :
    applyStyle spec st =
      match colorFullmatch spec with
      | none => Except.error "assert match is not None"
      | some (fgSpec, bgSpec) =>
        let fgNum := natOfDigits fgSpec
        let st := { st with fg := if inMircColors fgNum then some fgNum else none }
        match bgSpec with
        | none => Except.ok st
        | some bs =>
          let bgNum := natOfDigits (bs.dropWhile (fun c => c = ','))
          Except.ok { st with bg := if inMircColors bgNum then some bgNum else none } := by
  match spec with
  | c :: rest =>
    simp at hh
    subst hh
    unfold applyStyle
    rw [if_neg (by simp : ('\x03' :: rest : List Char) ≠ []),
        if_neg (by simp [List.cons.injEq] : ¬('\x03' :: rest : List Char) = ['\x02']),
        if_neg (by simp [List.cons.injEq] : ¬('\x03' :: rest : List Char) = ['\x1f']),
        if_pos (by simp : ('\x03' :: rest : List Char).head? = some '\x03')]

theorem applyStyle_color {ds : List Char} (st : Style) (hne : ds ≠ [])
    (hd : allDigits ds) (hl : ds.length ≤ 2) :
    applyStyle ('\x03' :: ds) st =
      Except.ok { st with
        fg := if natOfDigits ds ≤ 15 then some (natOfDigits ds) else none } := by
  rw [applyStyle_head3 st (by simp), colorFullmatch_fg hne hd hl]
  dsimp only
  by_cases h : natOfDigits ds ≤ 15
  · rw [if_pos ((inMircColors_iff _).mpr h), if_pos h]
  · rw [if_neg (fun hb => h ((inMircColors_iff _).mp hb)), if_neg h]

theorem applyStyle_color_bg {ds ds2 : List Char} (st : Style) (hne : ds ≠ [])
    (hd : allDigits ds) (hl : ds.length ≤ 2) (hne2 : ds2 ≠ [])
    (hd2 : allDigits ds2) (hl2 : ds2.length ≤ 2) :
    applyStyle ('\x03' :: ds ++ ',' :: ds2) st =
      Except.ok { st with
        fg := if natOfDigits ds ≤ 15 then some (natOfDigits ds) else none,
        bg := if natOfDigits ds2 ≤ 15 then some (natOfDigits ds2) else none } := by
  rw [applyStyle_head3 st (by simp),
      colorFullmatch_fg_bg hne hd hl hne2 hd2 hl2]
  dsimp only
  have hdrop : (',' :: ds2).dropWhile (fun c => c = ',') = ds2 := by
    match ds2, hne2 with
    | d :: l, _ =>
      have hdne : ¬(d = ',') := digit_ne_comma (hd2 d (by simp))
      simp [List.dropWhile_cons, hdne]
  rw [hdrop]
  by_cases h : natOfDigits ds ≤ 15 <;> by_cases h2 : natOfDigits ds2 ≤ 15
  · rw [if_pos ((inMircColors_iff _).mpr h), if_pos h,
        if_pos ((inMircColors_iff _).mpr h2), if_pos h2]
  · rw [if_pos ((inMircColors_iff _).mpr h), if_pos h,
        if_neg (fun hb => h2 ((inMircColors_iff _).mp hb)), if_neg h2]
  · rw [if_neg (fun hb => h ((inMircColors_iff _).mp hb)), if_neg h,
        if_pos ((inMircColors_iff _).mpr h2), if_pos h2]
  · rw [if_neg (fun hb => h ((inMircColors_iff _).mp hb)), if_neg h,
        if_neg (fun hb => h2 ((inMircColors_iff _).mp hb)), if_neg h2]

theorem runsFrom_cons (st : Style) (spec sub : List Char) (rest : List (List Char × List Char)) :
    runsFrom st ((spec, sub) :: rest) =
      (applyStyle spec st).bind fun st' =>
        (runsFrom st' rest).bind fun rs =>
          if sub.isEmpty then Except.ok rs
          else Except.ok ((String.mk sub, tagsOf st') :: rs) := rfl

theorem stateAfter_cons (st : Style) (spec sub : List Char) (rest : List (List Char × List Char)) :
    stateAfter st ((spec, sub) :: rest) =
      (applyStyle spec st).bind fun st' => stateAfter st' rest := rfl

/-- The possible shapes of a separator matched by the style regex. -/
inductive SepShape : List Char → Prop
  | bold : SepShape ['\x02']
  | und : SepShape ['\x1f']
  | reset : SepShape ['\x0f']
  | color (ds : List Char) (hne : ds ≠ []) (hd : allDigits ds) (hl : ds.length ≤ 2) :
      SepShape ('\x03' :: ds)
  | colorBg (ds ds2 : List Char) (hne : ds ≠ []) (hd : allDigits ds) (hl : ds.length ≤ 2)
      (hne2 : ds2 ≠ []) (hd2 : allDigits ds2) (hl2 : ds2.length ≤ 2) :
      SepShape ('\x03' :: ds ++ ',' :: ds2)

theorem matchStyle_shape {s sep rem : List Char}
    (h : matchStyle s = some (sep, rem)) : SepShape sep := by
  match s with
  | [] => simp [matchStyle] at h
  | c :: rest =>
    simp only [matchStyle] at h
    by_cases hc : c = '\x02' ∨ c = '\x1f' ∨ c = '\x0f'
    · rw [if_pos hc] at h
      obtain ⟨h1, -⟩ := Prod.mk.injEq .. ▸ Option.some.inj h
      rcases hc with hc | hc | hc <;> subst hc <;> rw [← h1]
      · exact SepShape.bold
      · exact SepShape.und
      · exact SepShape.reset
    · by_cases hc3 : c = '\x03'
      · rw [if_neg hc, if_pos hc3] at h
        subst hc3
        rcases htd : takeDigits2 rest with ⟨ds, rest1⟩
        have hdec := takeDigits2_decomp rest
        rw [htd] at hdec h
        simp only at h
        by_cases hds : ds = []
        · rw [if_pos hds] at h; cases h
        · rw [if_neg hds] at h
          by_cases hcomma : rest1.head? = some ','
          · rw [if_pos hcomma] at h
            rcases htd2 : takeDigits2 rest1.tail with ⟨ds2, rest3⟩
            have hdec2 := takeDigits2_decomp rest1.tail
            rw [htd2] at hdec2 h
            simp only at h
            by_cases hds2 : ds2 = []
            · rw [if_pos hds2] at h
              obtain ⟨h1, -⟩ := Prod.mk.injEq .. ▸ Option.some.inj h
              rw [← h1]
              exact SepShape.color ds hds hdec.2.1 hdec.2.2
            · rw [if_neg hds2] at h
              obtain ⟨h1, -⟩ := Prod.mk.injEq .. ▸ Option.some.inj h
              rw [← h1]
              exact SepShape.colorBg ds ds2 hds hdec.2.1 hdec.2.2 hds2 hdec2.2.1 hdec2.2.2
          · rw [if_neg hcomma] at h
            obtain ⟨h1, -⟩ := Prod.mk.injEq .. ▸ Option.some.inj h
            rw [← h1]
            exact SepShape.color ds hds hdec.2.1 hdec.2.2
      · rw [if_neg hc, if_neg hc3] at h; cases h

theorem applyStyle_shape_ok {sep : List Char} (hs : SepShape sep) (st : Style) :
    ∃ st', applyStyle sep st = Except.ok st' := by
  cases hs with
  | bold => exact ⟨st, applyStyle_bold st⟩
  | und => exact ⟨_, applyStyle_underline st⟩
  | reset => exact ⟨_, applyStyle_reset st⟩
  | color ds hne hd hl => exact ⟨_, applyStyle_color st hne hd hl⟩
  | colorBg ds ds2 hne hd hl hne2 hd2 hl2 =>
    exact ⟨_, applyStyle_color_bg st hne hd hl hne2 hd2 hl2⟩

theorem splitPartsF_shapes (f : Nat) :
    ∀ s : List Char, s.length ≤ f → ∀ pr ∈ (splitPartsF f s).2, SepShape pr.1 := by
  induction f with
  | zero =>
    intro s hs pr hpr
    simp [splitPartsF] at hpr
  | succ f ih =>
    intro s hs pr hpr
    cases s with
    | nil => simp [splitPartsF] at hpr
    | cons c rest =>
      rw [splitPartsF_succ_cons] at hpr
      cases hm : matchStyle (c :: rest) with
      | some pr2 =>
        rcases pr2 with ⟨sep, rem⟩
        rw [hm] at hpr
        simp only at hpr
        rcases List.mem_cons.mp hpr with hfirst | hrest
        · rw [hfirst]
          exact matchStyle_shape hm
        · have hlen := (matchStyle_length hm).1
          simp at hs hlen
          exact ih rem (by omega) pr hrest
      | none =>
        rw [hm] at hpr
        simp only at hpr
        simp at hs
        exact ih rest (by omega) pr hpr

theorem splitParts_shapes {s : List Char} :
    ∀ pr ∈ (splitParts s).2, SepShape pr.1 :=
  splitPartsF_shapes s.length s (Nat.le_refl _)

theorem runsFrom_shape_ok :
    ∀ (pairs : List (List Char × List Char)),
      (∀ pr ∈ pairs, pr.1 = [] ∨ SepShape pr.1) →
      ∀ st : Style, ∃ rs, runsFrom st pairs = Except.ok rs := by
  intro pairs
  induction pairs with
  | nil => intro _ st; exact ⟨[], rfl⟩
  | cons q rest ih =>
    intro h st
    rcases q with ⟨spec, sub⟩
    obtain ⟨st', hst⟩ : ∃ st', applyStyle spec st = Except.ok st' := by
      rcases h (spec, sub) (by simp) with hnil | hshape
      · simp only at hnil
        rw [hnil]
        exact ⟨st, applyStyle_nil st⟩
      · exact applyStyle_shape_ok hshape st
    obtain ⟨rs, hrs⟩ := ih (fun pr hpr => h pr (by simp [hpr])) st'
    refine ⟨if sub.isEmpty then rs else (String.mk sub, tagsOf st') :: rs, ?_⟩
    rw [runsFrom_cons, hst]
    simp only [Except.bind]
    rw [hrs]
    by_cases he : sub.isEmpty <;> simp [he]

theorem parse_text_total (s : String) : ∃ rs, parse_text s = Except.ok rs := by
  unfold parse_text
  rw [splitPairs_eq]
  apply runsFrom_shape_ok
  intro pr hpr
  rcases List.mem_cons.mp hpr with hfirst | hrest
  · left; rw [hfirst]
  · right; exact splitParts_shapes pr hrest

theorem runsFrom_append (st : Style) (p1 p2 : List (List Char × List Char)) :
    runsFrom st (p1 ++ p2) =
      (runsFrom st p1).bind fun a =>
        (stateAfter st p1).bind fun σ =>
          (runsFrom σ p2).map fun b => a ++ b := by
  induction p1 generalizing st with
  | nil =>
    show runsFrom st p2 = (Except.ok []).bind fun a =>
      (Except.ok st).bind fun σ => (runsFrom σ p2).map fun b => a ++ b
    cases hr : runsFrom st p2 with
    | error e => simp [Except.bind, Except.map, hr]
    | ok rs => simp [Except.bind, Except.map, hr]
  | cons q rest ih =>
    rcases q with ⟨spec, sub⟩
    show runsFrom st ((spec, sub) :: (rest ++ p2)) = _
    rw [runsFrom_cons, runsFrom_cons, stateAfter_cons]
    cases ha : applyStyle spec st with
    | error e => simp [Except.bind]
    | ok st' =>
      simp only [Except.bind]
      rw [ih st']
      cases hr : runsFrom st' rest with
      | error e => simp [Except.bind]
      | ok a =>
        simp only [Except.bind]
        cases hs : stateAfter st' rest with
        | error e =>
          by_cases he : sub.isEmpty <;> simp [he, hs, Except.bind]
        | ok σ =>
          cases hp2 : runsFrom σ p2 with
          | error e =>
            by_cases he : sub.isEmpty <;> simp [he, hs, hp2, Except.bind, Except.map]
          | ok b =>
            by_cases he : sub.isEmpty <;> simp [he, hs, hp2, Except.bind, Except.map]

theorem stateAfter_of_runs {st : Style} {pairs : List (List Char × List Char)}
    {rs : List (String × List String)} (h : runsFrom st pairs = Except.ok rs) :
    ∃ σ, stateAfter st pairs = Except.ok σ := by
  induction pairs generalizing st rs with
  | nil => exact ⟨st, rfl⟩
  | cons q rest ih =>
    rcases q with ⟨spec, sub⟩
    rw [runsFrom_cons] at h
    rw [stateAfter_cons]
    cases ha : applyStyle spec st with
    | error e => rw [ha] at h; simp [Except.bind] at h
    | ok st' =>
      rw [ha] at h
      simp only [Except.bind] at h ⊢
      cases hr : runsFrom st' rest with
      | error e => rw [hr] at h; simp at h
      | ok a => exact ih hr

theorem runsFrom_reset_head (σ : Style) (t : List Char) (ps : List (List Char × List Char)) :
    runsFrom σ ((['\x0f'], t) :: ps) = runsFrom initStyle (([], t) :: ps) := by
  rw [runsFrom_cons, runsFrom_cons, applyStyle_reset, applyStyle_nil]
  rfl

theorem runsFrom_texts {st : Style} {pairs : List (List Char × List Char)}
    {rs : List (String × List String)} (h : runsFrom st pairs = Except.ok rs) :
    rs.flatMap (fun r => r.1.data) = pairs.flatMap (fun pr => pr.2) := by
  induction pairs generalizing st rs with
  | nil =>
    cases h
    rfl
  | cons q rest ih =>
    rcases q with ⟨spec, sub⟩
    rw [runsFrom_cons] at h
    cases ha : applyStyle spec st with
    | error e => rw [ha] at h; simp [Except.bind] at h
    | ok st' =>
      rw [ha] at h
      simp only [Except.bind] at h
      cases hr : runsFrom st' rest with
      | error e => rw [hr] at h; simp at h
      | ok a =>
        rw [hr] at h
        dsimp only at h
        by_cases he : sub.isEmpty
        · rw [if_pos he] at h
          cases h
          have hsub : sub = [] := by
            cases sub with
            | nil => rfl
            | cons x l => simp at he
          rw [ih hr]
          simp [hsub]
        · rw [if_neg he] at h
          cases h
          simp only [List.flatMap_cons]
          rw [ih hr]

theorem runsFrom_no_empty {st : Style} {pairs : List (List Char × List Char)}
    {rs : List (String × List String)} (h : runsFrom st pairs = Except.ok rs) :
    ∀ r ∈ rs, r.1 ≠ "" := by
  induction pairs generalizing st rs with
  | nil => cases h; simp
  | cons q rest ih =>
    rcases q with ⟨spec, sub⟩
    rw [runsFrom_cons] at h
    cases ha : applyStyle spec st with
    | error e => rw [ha] at h; simp [Except.bind] at h
    | ok st' =>
      rw [ha] at h
      simp only [Except.bind] at h
      cases hr : runsFrom st' rest with
      | error e => rw [hr] at h; simp at h
      | ok a =>
        rw [hr] at h
        dsimp only at h
        by_cases he : sub.isEmpty
        · rw [if_pos he] at h
          cases h
          exact ih hr
        · rw [if_neg he] at h
          cases h
          intro r hrow
          rcases List.mem_cons.mp hrow with hfirst | hrest2
          · rw [hfirst]
            intro hs
            have hsub : sub = [] := by
              have hd := congrArg String.data hs
              simpa using hd
            rw [hsub] at he
            simp at he
          · exact ih hr r hrest2

theorem splitPartsF_join (f : Nat) :
    ∀ s : List Char, s.length ≤ f →
      (splitPartsF f s).1 ++ ((splitPartsF f s).2.flatMap fun p => p.1 ++ p.2) = s := by
  induction f with
  | zero =>
    intro s hs
    simp [splitPartsF]
  | succ f ih =>
    intro s hs
    cases s with
    | nil => simp [splitPartsF]
    | cons c rest =>
      rw [splitPartsF_succ_cons]
      cases hm : matchStyle (c :: rest) with
      | some pr =>
        rcases pr with ⟨sep, rem⟩
        have hlen := (matchStyle_length hm).1
        simp only [List.nil_append, List.flatMap_cons]
        simp at hs hlen
        rw [List.append_assoc, ih rem (by omega)]
        exact (matchStyle_decomp hm).symm
      | none =>
        simp only [List.cons_append]
        simp at hs
        rw [ih rest (by omega)]

theorem splitParts_join (s : List Char) :
    (splitParts s).1 ++ ((splitParts s).2.flatMap fun p => p.1 ++ p.2) = s :=
  splitPartsF_join s.length s (Nat.le_refl _)

theorem parse_color_fg {ds s : List Char} (hne : ds ≠ [])
    (hd : allDigits ds) (hl : ds.length ≤ 2)
    (hs : plain s) (hsne : s ≠ []) (hh : neutralHead s) :
    parse_text (String.mk ('\x03' :: ds ++ s)) =
      Except.ok [(String.mk s,
        tagsOf { fg := if natOfDigits ds ≤ 15 then some (natOfDigits ds) else none,
                 bg := none, underline := false })] := by
  unfold parse_text
  show runsFrom initStyle (splitPairs ('\x03' :: ds ++ s)) = _
  rw [splitPairs_eq, splitParts_cons_sep (matchStyle_color s hne hd hl hh),
      splitParts_plain s hs]
  rw [runsFrom_cons, applyStyle_nil]
  simp only [Except.bind]
  rw [runsFrom_cons, applyStyle_color initStyle hne hd hl]
  simp only [Except.bind, runsFrom]
  have hje : s.isEmpty = false := by
    cases s with
    | nil => exact absurd rfl hsne
    | cons a l => rfl
  rw [hje]
  simp [initStyle]

theorem parse_color_fg_bg {dm dbm dn dbn t s : List Char}
    (hm1 : dm ≠ []) (hm2 : allDigits dm) (hm3 : dm.length ≤ 2)
    (hb1 : dbm ≠ []) (hb2 : allDigits dbm) (hb3 : dbm.length ≤ 2)
    (hn1 : dn ≠ []) (hn2 : allDigits dn) (hn3 : dn.length ≤ 2)
    (hc1 : dbn ≠ []) (hc2 : allDigits dbn) (hc3 : dbn.length ≤ 2)
    (ht : plain t) (htne : t ≠ []) (hth : neutralHead t)
    (hs : plain s) (hsne : s ≠ []) (hsh : neutralHead s) :
    parse_text (String.mk
      (('\x03' :: dm ++ ',' :: dbm) ++ t ++ ('\x03' :: dn ++ ',' :: dbn) ++ s)) =
      Except.ok
        [(String.mk t,
          tagsOf { fg := if natOfDigits dm ≤ 15 then some (natOfDigits dm) else none,
                   bg := if natOfDigits dbm ≤ 15 then some (natOfDigits dbm) else none,
                   underline := false }),
         (String.mk s,
          tagsOf { fg := if natOfDigits dn ≤ 15 then some (natOfDigits dn) else none,
                   bg := if natOfDigits dbn ≤ 15 then some (natOfDigits dbn) else none,
                   underline := false })] := by
  unfold parse_text
  show runsFrom initStyle
      (splitPairs (('\x03' :: dm ++ ',' :: dbm) ++ t ++ ('\x03' :: dn ++ ',' :: dbn) ++ s)) = _
  have hassoc : (('\x03' :: dm ++ ',' :: dbm) ++ t ++ ('\x03' :: dn ++ ',' :: dbn) ++ s : List Char)
      = ('\x03' :: dm ++ ',' :: dbm) ++ (t ++ (('\x03' :: dn ++ ',' :: dbn) ++ s)) := by
    simp [List.append_assoc]
  rw [hassoc]
  have hrest : neutralHead (t ++ (('\x03' :: dn ++ ',' :: dbn) ++ s)) := by
    cases t with
    | nil => exact absurd rfl htne
    | cons a l => exact hth
  have hstep1 : matchStyle (('\x03' :: dm ++ ',' :: dbm) ++ (t ++ (('\x03' :: dn ++ ',' :: dbn) ++ s))) =
      some ('\x03' :: dm ++ ',' :: dbm, t ++ (('\x03' :: dn ++ ',' :: dbn) ++ s)) := by
    have h := matchStyle_color_bg (t ++ (('\x03' :: dn ++ ',' :: dbn) ++ s))
      hm1 hm2 hm3 hb1 hb2 hb3 hrest
    simpa [List.append_assoc] using h
  have hstep2 : matchStyle (('\x03' :: dn ++ ',' :: dbn) ++ s) =
      some ('\x03' :: dn ++ ',' :: dbn, s) := by
    have h := matchStyle_color_bg s hn1 hn2 hn3 hc1 hc2 hc3 hsh
    simpa [List.append_assoc] using h
  rw [splitPairs_eq, splitParts_cons_sep hstep1,
      splitParts_plain_append t _ ht, splitParts_cons_sep hstep2,
      splitParts_plain s hs]
  rw [runsFrom_cons, applyStyle_nil]
  simp only [Except.bind]
  rw [runsFrom_cons, applyStyle_color_bg initStyle hm1 hm2 hm3 hb1 hb2 hb3]
  simp only [Except.bind]
  rw [runsFrom_cons, applyStyle_color_bg _ hn1 hn2 hn3 hc1 hc2 hc3]
  simp only [Except.bind, runsFrom]
  have hte : t.isEmpty = false := by
    cases t with
    | nil => exact absurd rfl htne
    | cons a l => rfl
  have hse : s.isEmpty = false := by
    cases s with
    | nil => exact absurd rfl hsne
    | cons a l => rfl
  simp [hse, hte, initStyle]

/-- C1: Parsing the input string "Hello \x034there\x0f!" with parse_text
yields exactly the three runs ("Hello ", no tags), ("there",
["foreground-4"]), ("!", no tags), in that order. -/
theorem C1_hello_scenario :
    parse_text "Hello \x034there\x0f!" =
      Except.ok [("Hello ", []), ("there", ["foreground-4"]), ("!", [])] := by
  decide

/-- C2: For every color code written as one or two digits whose value is at
most 15, parsing the `\x03<digits>` control sequence yields exactly one
state-tag `foreground-<n>` attached to the (control-free) text run that
follows it. -/
theorem C2_color_in_range (ds s : List Char)
    (hne : ds ≠ []) (hd : allDigits ds) (hl : ds.length ≤ 2)
    (hfg : natOfDigits ds ≤ 15)
    (hs : plain s) (hsne : s ≠ []) (hh : neutralHead s) :
    parse_text (String.mk ('\x03' :: ds ++ s)) =
      Except.ok [(String.mk s, ["foreground-" ++ toString (natOfDigits ds)])] := by
  rw [parse_color_fg hne hd hl hs hsne hh, if_pos hfg]
  simp [tagsOf]

theorem C2_color_in_range_witness :
    parse_text (String.mk ('\x03' :: ['4'] ++ "there".data)) =
      Except.ok [(String.mk "there".data, ["foreground-" ++ toString (natOfDigits ['4'])])] :=
  C2_color_in_range ['4'] "there".data (by decide) (by decide) (by decide)
    (by decide) (by decide) (by decide) (by decide)

/-- C3: For every out-of-range color code (more than 15, e.g. 99, written
with the at most two digits the regex consumes), parsing `\x03<digits>`
yields no foreground tag on the following text run: the run carries the
default (empty) tag list. -/
theorem C3_color_out_of_range (ds s : List Char)
    (hne : ds ≠ []) (hd : allDigits ds) (hl : ds.length ≤ 2)
    (hfg : 15 < natOfDigits ds)
    (hs : plain s) (hsne : s ≠ []) (hh : neutralHead s) :
    parse_text (String.mk ('\x03' :: ds ++ s)) =
      Except.ok [(String.mk s, [])] := by
  rw [parse_color_fg hne hd hl hs hsne hh, if_neg (by omega)]
  simp [tagsOf]

theorem C3_color_out_of_range_witness :
    parse_text (String.mk ('\x03' :: ['9', '9'] ++ "x".data)) =
      Except.ok [(String.mk "x".data, [])] :=
  C3_color_out_of_range ['9', '9'] "x".data (by decide) (by decide) (by decide)
    (by decide) (by decide) (by decide) (by decide)

/-- C4: A `\x0f` byte clears all active style state (foreground, background,
underline) no matter which style codes preceded it: the output for
`p ++ "\x0f" ++ s` is the output for `p` followed by the output for `s`
parsed from the pristine initial state, so every run after the `\x0f`
carries no style tags until a new style code appears. -/
theorem C4_reset_clears_all (p s : String) (rp rs : List (String × List String))
    (hp : parse_text p = Except.ok rp) (hs : parse_text s = Except.ok rs) :
    parse_text (p ++ "\x0f" ++ s) = Except.ok (rp ++ rs) := by
  have hf : ("\x0f" : String).data = ['\x0f'] := rfl
  have hdata : (p ++ "\x0f" ++ s).data = p.data ++ '\x0f' :: s.data := by
    rw [String.data_append, String.data_append, hf]
    simp
  unfold parse_text at hp hs ⊢
  rw [splitPairs_eq] at hp hs
  rw [hdata, splitPairs_eq, splitParts_reset]
  have hsplit : (([], (splitParts p.data).1) ::
        ((splitParts p.data).2 ++
          (['\x0f'], (splitParts s.data).1) :: (splitParts s.data).2) :
        List (List Char × List Char))
      = (([], (splitParts p.data).1) :: (splitParts p.data).2) ++
        ((['\x0f'], (splitParts s.data).1) :: (splitParts s.data).2) := by
    simp
  rw [hsplit, runsFrom_append, hp]
  obtain ⟨σ, hσ⟩ := stateAfter_of_runs hp
  rw [hσ]
  simp only [Except.bind]
  rw [runsFrom_reset_head, hs]
  rfl

theorem C4_reset_clears_all_witness :
    parse_text ("a" ++ "\x0f" ++ "b") =
      Except.ok ([("a", [])] ++ [("b", [])]) :=
  C4_reset_clears_all "a" "b" [("a", [])] [("b", [])] (by decide) (by decide)

/-- C6: parse_text is total and never raises: for every input string it
returns a run list (so the `assert match is not None` never fails and the
`raise ValueError` branch is unreachable), and the `parts` list always has
even length (the first `assert` of the source). -/
theorem C6_total_never_raises (s : String) :
    (∃ rs, parse_text s = Except.ok rs) ∧ (parts s.data).length % 2 = 0 :=
  ⟨parse_text_total s, parts_even s.data⟩

/-- C7: parse_text is a single left-to-right scan carrying
foreground/background/underline state across runs: (1) it is the stateful
fold `runsFrom` over the (separator, text) pairs of the split;
(2) the scan of a concatenation processes the left part first and feeds the
carried state into the right part, so state set by a style code persists
into all later runs until a later code changes it; (3) the tag list of each
visible run is re-evaluated from the current state when the run is
yielded; (4) the non-color codes act on the state exactly as documented
(`\x02` no-op, `\x1f` sets underline, `\x0f` resets everything). -/
theorem C7_left_to_right_stateful_scan :
    (∀ s : String, parse_text s = runsFrom initStyle (splitPairs s.data)) ∧
    (∀ (st : Style) (p1 p2 : List (List Char × List Char)),
      runsFrom st (p1 ++ p2) =
        (runsFrom st p1).bind fun a =>
          (stateAfter st p1).bind fun σ =>
            (runsFrom σ p2).map fun b => a ++ b) ∧
    (∀ (st : Style) (spec sub : List Char) (rest : List (List Char × List Char)),
      runsFrom st ((spec, sub) :: rest) =
        (applyStyle spec st).bind fun st' =>
          (runsFrom st' rest).bind fun rs =>
            if sub.isEmpty then Except.ok rs
            else Except.ok ((String.mk sub, tagsOf st') :: rs)) ∧
    (∀ st : Style,
      applyStyle [] st = Except.ok st ∧
      applyStyle ['\x02'] st = Except.ok st ∧
      applyStyle ['\x1f'] st = Except.ok { st with underline := true } ∧
      applyStyle ['\x0f'] st = Except.ok { fg := none, bg := none, underline := false }) :=
  ⟨fun _ => rfl, runsFrom_append, runsFrom_cons,
    fun st => ⟨applyStyle_nil st, applyStyle_bold st,
      applyStyle_underline st, applyStyle_reset st⟩⟩

/-- C9: concatenating the texts of the yielded runs gives back the input
with every matched style control sequence removed; no yielded run has empty
text; and the split really is a decomposition of the input into separators
and texts (so no visible character is lost, duplicated or reordered). -/
theorem C9_texts_preserved (s : String) (rs : List (String × List String))
    (h : parse_text s = Except.ok rs) :
    rs.flatMap (fun r => r.1.data) = stripStyle s.data ∧
    (∀ r ∈ rs, r.1 ≠ "") ∧
    (splitParts s.data).1 ++ ((splitParts s.data).2.flatMap fun p => p.1 ++ p.2) = s.data := by
  unfold parse_text at h
  rw [splitPairs_eq] at h
  refine ⟨?_, runsFrom_no_empty h, splitParts_join s.data⟩
  rw [runsFrom_texts h]
  simp [stripStyle]

theorem C9_texts_preserved_witness :
    ([("Hello ", ([] : List String)), ("there", ["foreground-4"]), ("!", [])].flatMap
        (fun r => r.1.data) = stripStyle "Hello \x034there\x0f!".data) ∧
    (∀ r ∈ [("Hello ", ([] : List String)), ("there", ["foreground-4"]), ("!", [])],
      r.1 ≠ "") ∧
    ((splitParts "Hello \x034there\x0f!".data).1 ++
      ((splitParts "Hello \x034there\x0f!".data).2.flatMap fun p => p.1 ++ p.2) =
        "Hello \x034there\x0f!".data) :=
  C9_texts_preserved "Hello \x034there\x0f!"
    [("Hello ", []), ("there", ["foreground-4"]), ("!", [])] (by decide)

/-- C10: an out-of-range color code overwrites a previously active
in-range color rather than leaving it in effect, for both the foreground
and the background component: after `\x03<m>,<mb>` (both in range) the text
carries `foreground-<m>` and `background-<mb>`, and after a following
`\x03<n>,<nb>` (both out of range) the text carries no color tags at all. -/
theorem C10_out_of_range_overwrites (dm dbm dn dbn t s : List Char)
    (hm1 : dm ≠ []) (hm2 : allDigits dm) (hm3 : dm.length ≤ 2)
    (hb1 : dbm ≠ []) (hb2 : allDigits dbm) (hb3 : dbm.length ≤ 2)
    (hn1 : dn ≠ []) (hn2 : allDigits dn) (hn3 : dn.length ≤ 2)
    (hc1 : dbn ≠ []) (hc2 : allDigits dbn) (hc3 : dbn.length ≤ 2)
    (ht : plain t) (htne : t ≠ []) (hth : neutralHead t)
    (hs : plain s) (hsne : s ≠ []) (hsh : neutralHead s)
    (hm : natOfDigits dm ≤ 15) (hmb : natOfDigits dbm ≤ 15)
    (hn : 15 < natOfDigits dn) (hnb : 15 < natOfDigits dbn) :
    parse_text (String.mk
      (('\x03' :: dm ++ ',' :: dbm) ++ t ++ ('\x03' :: dn ++ ',' :: dbn) ++ s)) =
      Except.ok
        [(String.mk t, ["foreground-" ++ toString (natOfDigits dm),
                        "background-" ++ toString (natOfDigits dbm)]),
         (String.mk s, [])] := by
  rw [parse_color_fg_bg hm1 hm2 hm3 hb1 hb2 hb3 hn1 hn2 hn3 hc1 hc2 hc3
      ht htne hth hs hsne hsh,
      if_pos hm, if_pos hmb, if_neg (by omega), if_neg (by omega)]
  simp [tagsOf]

theorem C10_out_of_range_overwrites_witness :
    parse_text (String.mk
      (('\x03' :: ['4'] ++ ',' :: ['5']) ++ "a".data ++
        ('\x03' :: ['9', '9'] ++ ',' :: ['9', '8']) ++ "b".data)) =
      Except.ok
        [(String.mk "a".data, ["foreground-" ++ toString (natOfDigits ['4']),
                               "background-" ++ toString (natOfDigits ['5'])]),
         (String.mk "b".data, [])] :=
  C10_out_of_range_overwrites ['4'] ['5'] ['9', '9'] ['9', '8'] "a".data "b".data
    (by decide) (by decide) (by decide) (by decide) (by decide) (by decide)
    (by decide) (by decide) (by decide) (by decide) (by decide) (by decide)
    (by decide) (by decide) (by decide) (by decide) (by decide) (by decide)
    (by decide) (by decide) (by decide) (by decide)

/-- C5 counterexample: the empty string contains no control bytes, yet
parse_text yields no run at all rather than the single run ("", []) the
claim requires for "every input string containing no control bytes". -/
theorem C5_empty_input_counterexample :
    plain ("" : String).data ∧
    parse_text "" = Except.ok [] ∧
    parse_text "" ≠ Except.ok [("", [])] := by
  refine ⟨by decide, by decide, by decide⟩

/-- C5 (amended to non-empty inputs): every non-empty input string
containing no control bytes yields exactly one run consisting of the whole
input with an empty tag list. -/
theorem C5_plain_single_run (s : String) (hp : plain s.data) (hne : s ≠ "") :
    parse_text s = Except.ok [(s, [])] := by
  have hdne : s.data ≠ [] := by
    intro h
    apply hne
    cases s with
    | mk d =>
      have h' : d = [] := h
      subst h'
      rfl
  have hie : s.data.isEmpty = false := by
    cases hd : s.data with
    | nil => exact absurd hd hdne
    | cons a l => rfl
  unfold parse_text
  rw [splitPairs_eq, splitParts_plain s.data hp]
  rw [runsFrom_cons, applyStyle_nil]
  simp only [Except.bind, runsFrom, hie]
  have hmk : String.mk s.data = s := by
    cases s with
    | mk d => rfl
  simp [hmk, tagsOf, initStyle]

theorem C5_plain_single_run_witness :
    parse_text "hi" = Except.ok [("hi", [])] :=
  C5_plain_single_run "hi" (by decide) (by decide)

/-- Python `url.split(sep)[0]`: the text before the first occurrence of the
separator character. -/
def splitFirst (sep : Char) (s : List Char) : List Char :=
  s.takeWhile (fun c => c != sep)

/-- Python `str.rstrip(chars)`: remove every trailing character that is in
`chars`. -/
def rstrip (s cs : List Char) : List Char :=
  (s.reverse.dropWhile (fun c => cs.contains c)).reverse

/-- The URL candidate of `find_and_tag_urls`: the rest of the line from the
match position, cut at the first space, apostrophe, double quote and
backtick (the four `split(...)[0]` steps of the source, applied in this
order). -/
def urlCandidate (lineRest : List Char) : List Char :=
  splitFirst (Char.ofNat 96)
    (splitFirst (Char.ofNat 34)
      (splitFirst (Char.ofNat 39)
        (splitFirst ' ' lineRest)))

/-- The trailing-punctuation stripping of `find_and_tag_urls`: strip
`.,?!`, then strip trailing `)` only when the URL contains no `(`, then
strip `.,?!` again. -/
def stripTrailingPunct (url : List Char) : List Char :=
  let url := rstrip url ['.', ',', '?', '!']
  let url := if ('(' ∈ url) then url else rstrip url [')']
  rstrip url ['.', ',', '?', '!']

/-- The URL text the source tags for a given rest-of-line. -/
def taggedUrl (lineRest : List Char) : List Char :=
  stripTrailingPunct (urlCandidate lineRest)

/-- The region covered by `tag_add("url", match_start, match_start +
len(url) chars)`: the first `len(taggedUrl)` characters from the match
position. -/
def taggedRegion (lineRest : List Char) : List Char :=
  lineRest.take (taggedUrl lineRest).length

theorem rstrip_isPre (s cs : List Char) : rstrip s cs <+: s := by
  have h : s.reverse.dropWhile (fun c => cs.contains c) <:+ s.reverse :=
    List.dropWhile_suffix _
  have h2 := List.reverse_prefix.mpr h
  rw [List.reverse_reverse] at h2
  exact h2

theorem splitFirst_isPre (sep : Char) (s : List Char) : splitFirst sep s <+: s :=
  List.takeWhile_prefix _

/-- C8: the URL stripping follows exactly the claimed three phases
(strip `.,?!`; strip trailing `)` only if the URL contains no `(`;
strip `.,?!` again), and the tagged region `[match_start, match_start +
len(url))` covers exactly the stripped URL. -/
theorem C8_url_strip_region (lineRest : List Char) :
    taggedUrl lineRest =
      rstrip
        (if ('(' ∈ rstrip (urlCandidate lineRest) ['.', ',', '?', '!'])
         then rstrip (urlCandidate lineRest) ['.', ',', '?', '!']
         else rstrip (rstrip (urlCandidate lineRest) ['.', ',', '?', '!']) [')'])
        ['.', ',', '?', '!'] ∧
    taggedRegion lineRest = taggedUrl lineRest := by
  constructor
  · rfl
  · have h1 : urlCandidate lineRest <+: lineRest :=
      ((( splitFirst_isPre _ _).trans ( splitFirst_isPre _ _)).trans
        ( splitFirst_isPre _ _)).trans ( splitFirst_isPre _ _)
    have h2 : taggedUrl lineRest <+: urlCandidate lineRest := by
      unfold taggedUrl stripTrailingPunct
      by_cases hpar : ('(' ∈ rstrip (urlCandidate lineRest) ['.', ',', '?', '!'])
      · simp only [if_pos hpar]
        exact (rstrip_isPre _ _).trans (rstrip_isPre _ _)
      · simp only [if_neg hpar]
        exact ((rstrip_isPre _ _).trans (rstrip_isPre _ _)).trans (rstrip_isPre _ _)
    have h := h2.trans h1
    unfold taggedRegion
    exact (List.prefix_iff_eq_take.mp h).symm
